import Mathlib

/-!
# Finite state machine with undo/redo history (`src/fsm.js`)

A shallow embedding of the classes `Stack` and `FSM` of `src/fsm.js`.

Modelling conventions.

* A JavaScript value that can sit in a stack slot is a `Val`: `some s` is the
  string `s`, `none` is `undefined`.  The program only converts such a value
  to a property key and tests whether it is truthy, so a built-in function or
  object read from `Object.prototype` is stood for by the string it converts
  to as a property key (`objectPrototype`), which is never empty.
* A JavaScript array is a `List Val`; reading outside the array gives
  `undefined`, writing past the end pads the array with holes (which read as
  `undefined`).
* The configuration object `config.states` is a list of own properties
  `(key, record)` in the order in which they were inserted; `getProp` finds an
  own property.  The table and every `transitions` object are ordinary
  objects, with `Object.prototype` as prototype: a property read `obj[key]`
  (`readState`, `readTarget`) that finds no own property finds the property
  of that name of `Object.prototype`, if there is one, and is `undefined`
  otherwise.  A `for ... in` loop visits the own keys in the order of
  `forInKeys`; `Object.prototype` has no enumerable property.
* A method is a function from the machine to a pair: what the call returned or
  threw, and the machine as the call left it.  A thrown error therefore keeps
  whatever mutation happened before the `throw`.
-/

namespace FsmJs

/-- A JavaScript value held in a stack slot: a string, or `undefined`. -/
abbrev Val := Option String

/-- The errors the code can throw. -/
inductive FsmError where
  /-- `new Error("This state doesn't exist.")`, thrown by `changeState`. -/
  | unknownState
  /-- `new Error("This event can't be triggered.")`, thrown by `trigger`. -/
  | invalidTransition
  /-- `new Error("No elements to pop")`, thrown by `Stack.pop`. -/
  | noElements
  /-- The engine's `TypeError` for reading a property of `undefined`. -/
  | typeError
  deriving DecidableEq, Repr

/-- The message carried by each error.  The first three are the literals of
the `new Error(...)` expressions in the source; the text of the `TypeError`
is the engine's and stands for any such text. -/
def FsmError.message : FsmError → String
  | .unknownState => "This state doesn't exist."
  | .invalidTransition => "This event can't be triggered."
  | .noElements => "No elements to pop"
  | .typeError => "Cannot read properties of undefined"

/-- Truthiness of a JavaScript value that is a string or `undefined`:
the empty string and `undefined` are falsy. -/
def truthy : Val → Bool
  | none => false
  | some s => s != ""

/-- The property key a value is converted to when used as `obj[v]`. -/
def propertyKey : Val → String
  | none => "undefined"
  | some s => s

/-- Array read `a[i]`: `undefined` outside the array. -/
def arrayGet (a : List Val) (i : Nat) : Val :=
  (a.get? i).join

/-- Array write `a[i] = v`: overwrites inside the array, otherwise grows the
array, leaving holes between the old end and `i`. -/
def arraySet (a : List Val) (i : Nat) (v : Val) : List Val :=
  if i < a.length then a.set i v
  else a ++ List.replicate (i - a.length) none ++ [v]

/-! ## class Stack -/

/-- The class `Stack`: a backing array and the index of the next free slot. -/
structure Stack where
  data : List Val
  top : Nat
  deriving DecidableEq, Repr

namespace Stack

/-- The constructor of `Stack`: `data = []`, `top = 0`. -/
def create : Stack := ⟨[], 0⟩

/-- The method `push(element)`: `this.data[this.top++] = element`. -/
def push (s : Stack) (element : Val) : Stack :=
  ⟨arraySet s.data s.top element, s.top + 1⟩

/-- The method `length()`: returns `this.top`. -/
def length (s : Stack) : Nat := s.top

/-- The method `pop()`: `this.data[--this.top]` when the stack is not empty,
otherwise throws. -/
def pop (s : Stack) : Except FsmError Val × Stack :=
  if s.length > 0 then
    (.ok (arrayGet s.data (s.top - 1)), ⟨s.data, s.top - 1⟩)
  else (.error .noElements, s)

/-- The method `peek()`: `this.data[this.top-1]`.  With `top = 0` the index is
`-1`, which is no array element, so the read gives `undefined`. -/
def peek (s : Stack) : Val :=
  if s.top = 0 then none else arrayGet s.data (s.top - 1)

/-- The method `clear()`: `this.top = 0`; the backing array is kept. -/
def clear (s : Stack) : Stack := ⟨s.data, 0⟩

/-- The elements the stack holds, oldest first: slots `0 .. top-1` of the
backing array.  This is what the specification calls a history sequence. -/
def contents (s : Stack) : List Val :=
  (List.range s.top).map (arrayGet s.data)

end Stack

/-! ## class FSM -/

/-- The record of one state in `config.states`: its `transitions` object, as
the list of its own properties `(event, target)`. -/
structure StateRecord where
  transitions : List (String × String)
  deriving DecidableEq, Repr

/-- The object `config.states`: own properties `(state, record)` in insertion
order. -/
abbrev Table := List (String × StateRecord)

/-- The own property `key` of an object given as its list of own properties;
`none` when the object has no own property of that name. -/
def getProp {α : Type} (obj : List (String × α)) (key : String) : Option α :=
  obj.lookup key

/-- The own keys of an object, in insertion order. -/
def keys {α : Type} (obj : List (String × α)) : List String :=
  obj.map Prod.fst

/-- The properties every ordinary object inherits from `Object.prototype`,
each with the string its value converts to as a property key: the source text
of a built-in function as V8 prints it, and `[object Object]` for the object
that the accessor `__proto__` returns.  All these values are truthy, and none
of them has a property `transitions`. -/
def objectPrototype : List (String × String) :=
  [("constructor", "function Object() { [native code] }"),
   ("__defineGetter__", "function __defineGetter__() { [native code] }"),
   ("__defineSetter__", "function __defineSetter__() { [native code] }"),
   ("hasOwnProperty", "function hasOwnProperty() { [native code] }"),
   ("__lookupGetter__", "function __lookupGetter__() { [native code] }"),
   ("__lookupSetter__", "function __lookupSetter__() { [native code] }"),
   ("isPrototypeOf", "function isPrototypeOf() { [native code] }"),
   ("propertyIsEnumerable", "function propertyIsEnumerable() { [native code] }"),
   ("toString", "function toString() { [native code] }"),
   ("valueOf", "function valueOf() { [native code] }"),
   ("__proto__", "[object Object]"),
   ("toLocaleString", "function toLocaleString() { [native code] }")]

/-- What the read `this.states[key]` can give, when it is not `undefined`:
the record of a declared state, or a built-in inherited from
`Object.prototype`. -/
inductive Entry where
  | record (r : StateRecord)
  | builtin (text : String)
  deriving DecidableEq, Repr

/-- The read `this.states[key]`: the own property if there is one, else the
inherited one, else `undefined` (`none`). -/
def readState (states : Table) (key : String) : Option Entry :=
  match getProp states key with
  | some r => some (.record r)
  | none => (getProp objectPrototype key).map Entry.builtin

/-- The read `transitions[event]`: the own target if there is one, else the
inherited built-in, else `undefined`. -/
def readTarget (transitions : List (String × String)) (event : String) : Val :=
  match getProp transitions event with
  | some t => some t
  | none => getProp objectPrototype event

/-- The class `FSM`. -/
structure FSM where
  initialState : String
  states : Table
  statesDone : Stack
  statesUndone : Stack
  deriving DecidableEq, Repr

namespace FSM

/-- The constructor `new FSM(config)` with `config.initial = initial` and
`config.states = states`. -/
def create (initial : String) (states : Table) : FSM :=
  { initialState := initial
    states := states
    statesDone := Stack.create.push (some initial)
    statesUndone := Stack.create }

/-- The method `getState()`. -/
def getState (m : FSM) : Val := m.statesDone.peek

/-- The method `changeState(state)`.  The argument is used as a property key
in `this.states[state]` and pushed as it is. -/
def changeState (m : FSM) (state : Val) : Except FsmError Unit × FSM :=
  if (readState m.states (propertyKey state)).isNone then
    (.error .unknownState, m)
  else
    (.ok (), { m with statesDone := m.statesDone.push state
                      statesUndone := m.statesUndone.clear })

/-- The method `trigger(event)`.  Reading `.transitions` of an undefined table
entry throws a `TypeError`; an inherited built-in has no `transitions`, so
reading `[event]` of it throws a `TypeError` too; a call of `changeState` that
throws ends `trigger` with the same error, before the second `clear()`. -/
def trigger (m : FSM) (event : String) : Except FsmError Unit × FSM :=
  let currentState := m.getState
  match readState m.states (propertyKey currentState) with
  | none => (.error .typeError, m)
  | some (.builtin _) => (.error .typeError, m)
  | some (.record record) =>
    let newState : Val := readTarget record.transitions event
    if truthy newState then
      match m.changeState newState with
      | (.ok (), m1) => (.ok (), { m1 with statesUndone := m1.statesUndone.clear })
      | (.error e, m1) => (.error e, m1)
    else (.error .invalidTransition, m)

/-- The method `reset()`. -/
def reset (m : FSM) : FSM :=
  { m with statesDone := m.statesDone.clear.push (some m.initialState) }

/-- The method `undo()`. -/
def undo (m : FSM) : Except FsmError Bool × FSM :=
  if m.statesDone.length > 1 then
    match m.statesDone.pop with
    | (.ok v, done1) =>
      (.ok true, { m with statesDone := done1, statesUndone := m.statesUndone.push v })
    | (.error e, done1) => (.error e, { m with statesDone := done1 })
  else (.ok false, m)

/-- The method `redo()`. -/
def redo (m : FSM) : Except FsmError Bool × FSM :=
  if m.statesUndone.length > 0 then
    match m.statesUndone.pop with
    | (.ok v, undone1) =>
      (.ok true, { m with statesDone := m.statesDone.push v, statesUndone := undone1 })
    | (.error e, undone1) => (.error e, { m with statesUndone := undone1 })
  else (.ok false, m)

/-- The method `clearHistory()`. -/
def clearHistory (m : FSM) : FSM :=
  { m with statesDone := m.statesDone.clear.push (some m.initialState)
           statesUndone := m.statesUndone.clear }

end FSM

/-! ## Sequences of calls -/

/-- A forward move: a call of `changeState` or of `trigger`, with a string as
argument. -/
inductive Forward where
  | changeState (state : String)
  | trigger (event : String)
  deriving DecidableEq, Repr

/-- Performs one forward move. -/
def applyForward (m : FSM) : Forward → Except FsmError Unit × FSM
  | .changeState state => m.changeState (some state)
  | .trigger event => m.trigger event

/-- Performs the forward moves in order; `some` of the final machine when
every call returned normally, `none` as soon as one throws. -/
def runForward (m : FSM) : List Forward → Option FSM
  | [] => some m
  | f :: rest =>
    match applyForward m f with
    | (.ok (), m1) => runForward m1 rest
    | (.error _, _) => none

/-- Calls `undo()` `k` times; `some` of the final machine when every call
returned `true`, `none` as soon as one returns `false` or throws. -/
def undoTimes : Nat → FSM → Option FSM
  | 0, m => some m
  | k + 1, m =>
    match m.undo with
    | (.ok true, m1) => undoTimes k m1
    | _ => none

/-- Calls `redo()` `k` times; `some` of the final machine when every call
returned `true`, `none` as soon as one returns `false` or throws. -/
def redoTimes : Nat → FSM → Option FSM
  | 0, m => some m
  | k + 1, m =>
    match m.redo with
    | (.ok true, m1) => redoTimes k m1
    | _ => none

/-- A call of one of the mutating methods of `FSM`; state and event
identifiers are strings. -/
inductive Call where
  | changeState (state : String)
  | trigger (event : String)
  | reset
  | clearHistory
  | undo
  | redo
  deriving DecidableEq, Repr

/-- The machine after one call, whether the call returned or threw. -/
def step (m : FSM) : Call → FSM
  | .changeState state => (m.changeState (some state)).2
  | .trigger event => (m.trigger event).2
  | .reset => m.reset
  | .clearHistory => m.clearHistory
  | .undo => m.undo.2
  | .redo => m.redo.2

/-- The machine after a sequence of calls. -/
def run (m : FSM) (calls : List Call) : FSM :=
  calls.foldl step m

/-- A machine is reachable when some sequence of calls leads to it from a
freshly constructed machine. -/
def Reachable (m : FSM) : Prop :=
  ∃ initial states calls, run (FSM.create initial states) calls = m

/-- The done history is not empty, and neither history holds `undefined`. -/
def HistoryOk (m : FSM) : Prop :=
  m.statesDone.contents ≠ [] ∧
    (∀ v ∈ m.statesDone.contents, v ≠ none) ∧
    ∀ v ∈ m.statesUndone.contents, v ≠ none

/-- The specification's reading of `clearHistory`: `reset()` followed by
emptying `undone`. -/
def resetThenClearUndone (m : FSM) : FSM :=
  { m.reset with statesUndone := m.reset.statesUndone.clear }

/-- The table of the specification's scenario: `A --go--> B`, `B --go--> C`,
`B --back--> A`. -/
def abcTable : Table :=
  [("A", ⟨[("go", "B")]⟩), ("B", ⟨[("go", "C"), ("back", "A")]⟩), ("C", ⟨[]⟩)]

/-- A table in which the empty string is a declared state and the target of
the event `e` of state `A`. -/
def emptyNameTable : Table :=
  [("", ⟨[]⟩), ("A", ⟨[("e", "")]⟩)]

/-! ## Enumeration of an object and `getStates` -/

/-- The number a property key stands for when it is an array index: a decimal
numeral without a sign or a leading zero (except `0` itself) whose value is at
most `2^32 - 2`. -/
def arrayIndex? (key : String) : Option Nat :=
  match key.data with
  | [] => none
  | c :: cs =>
    if (c :: cs).all Char.isDigit && (c != '0' || cs.isEmpty) then
      let n := (c :: cs).foldl (fun acc d => 10 * acc + (d.toNat - 48)) 0
      if n < 4294967295 then some n else none
    else none

/-- Whether a property key is an array index. -/
def isArrayIndex (key : String) : Bool := (arrayIndex? key).isSome

/-- Array-index keys are compared by the number they stand for. -/
def IndexLe (a b : String) : Prop :=
  (arrayIndex? a).getD 0 ≤ (arrayIndex? b).getD 0

instance : DecidableRel IndexLe :=
  fun a b => inferInstanceAs (Decidable ((arrayIndex? a).getD 0 ≤ (arrayIndex? b).getD 0))

/-- The order in which `for (var key in obj)` visits the own keys of `obj`:
first the keys that are array indices, in ascending numeric order, then the
other keys in insertion order. -/
def forInKeys {α : Type} (obj : List (String × α)) : List String :=
  ((keys obj).filter isArrayIndex).insertionSort IndexLe ++
    (keys obj).filter (fun key => !isArrayIndex key)

/-- The first loop of `getStates`: every visited key is pushed on
`specifiedStates`. -/
def collectAll : List String → List String → List String
  | [], specifiedStates => specifiedStates
  | key :: rest, specifiedStates => collectAll rest (specifiedStates ++ [key])

/-- The second loop of `getStates`: a visited key is pushed when
`this.states[key].transitions[event]` is truthy; reading `.transitions` of an
undefined entry, or `[event]` of the undefined `transitions` of a built-in,
throws a `TypeError`. -/
def collectFor (states : Table) (event : String) :
    List String → List String → Except FsmError (List String)
  | [], specifiedStates => .ok specifiedStates
  | key :: rest, specifiedStates =>
    match readState states key with
    | none => .error .typeError
    | some (.builtin _) => .error .typeError
    | some (.record record) =>
      if truthy (readTarget record.transitions event) then
        collectFor states event rest (specifiedStates ++ [key])
      else collectFor states event rest specifiedStates

/-- The method `getStates(event)`; `event = none` is a call without
argument. -/
def FSM.getStates (m : FSM) (event : Val) : Except FsmError (List String) :=
  if !truthy event then
    .ok (collectAll (forInKeys m.states) [])
  else
    collectFor m.states (propertyKey event) (forInKeys m.states) []

/-- Whether `this.states[key].transitions[event]` is read and truthy. -/
def hasTarget (states : Table) (event key : String) : Bool :=
  match readState states key with
  | some (.record record) => truthy (readTarget record.transitions event)
  | _ => false

/-- A table whose second key is an array index. -/
def indexKeyTable : Table :=
  [("b", ⟨[]⟩), ("1", ⟨[]⟩)]

/-- A table in which the event `e` of state `A` has the empty string as
target, and the empty string is not a declared state. -/
def danglingEmptyTable : Table :=
  [("A", ⟨[("e", "")]⟩)]

/-- A table in which the event `e` of state `A` has as target `constructor`,
which is not a declared state. -/
def inheritedTargetTable : Table :=
  [("A", ⟨[("e", "constructor")]⟩)]

/-! ## The stack as a sequence -/


theorem arrayGet_arraySet_self (a : List Val) (i : Nat) (v : Val) :
    arrayGet (arraySet a i v) i = v := by
  unfold arrayGet arraySet
  split
  · next h => simp [List.getElem?_set, h]
  · next h =>
    have hlen : (a ++ List.replicate (i - a.length) none).length = i := by
      simp; omega
    rw [List.get?_eq_getElem?, List.getElem?_append_right (by omega)]
    simp [hlen]

theorem arrayGet_arraySet_lt (a : List Val) (i j : Nat) (v : Val) (hj : j < i) :
    arrayGet (arraySet a i v) j = arrayGet a j := by
  unfold arrayGet arraySet
  split
  · next h =>
    have : i ≠ j := by omega
    simp [List.getElem?_set, this]
  · next h =>
    have hlen : (a ++ List.replicate (i - a.length) none).length = i := by
      simp; omega
    rw [List.get?_eq_getElem?, List.get?_eq_getElem?,
      List.getElem?_append_left (by omega)]
    by_cases hja : j < a.length
    · rw [List.getElem?_append_left hja]
    · have hrep : (List.replicate (i - a.length) (none : Val))[j - a.length]? = some none := by
        rw [List.getElem?_replicate]
        have : j - a.length < i - a.length := by omega
        simp [this]
      rw [List.getElem?_append_right (by omega), hrep, List.getElem?_eq_none (by omega)]
      rfl

namespace Stack

theorem length_contents (s : Stack) : s.contents.length = s.top := by
  simp [contents]

theorem contents_create : Stack.create.contents = [] := rfl

theorem contents_clear (s : Stack) : s.clear.contents = [] := rfl

theorem contents_push (s : Stack) (v : Val) :
    (s.push v).contents = s.contents ++ [v] := by
  simp only [contents, push, List.range_succ, List.map_append, List.map_cons,
    List.map_nil, arrayGet_arraySet_self]
  congr 1
  apply List.map_congr_left
  intro j hj
  exact arrayGet_arraySet_lt _ _ _ _ (List.mem_range.mp hj)

theorem pop_pos (s : Stack) (h : 0 < s.top) :
    s.pop = (.ok (arrayGet s.data (s.top - 1)), ⟨s.data, s.top - 1⟩) := by
  simp [pop, length, h]

theorem pop_zero (s : Stack) (h : s.top = 0) : s.pop = (.error .noElements, s) := by
  simp [pop, length, h]

theorem contents_eq_pop (s : Stack) (h : 0 < s.top) :
    s.contents =
      (⟨s.data, s.top - 1⟩ : Stack).contents ++ [arrayGet s.data (s.top - 1)] := by
  obtain ⟨d, t⟩ := s
  cases t with
  | zero => simp at h
  | succ n => simp [contents, List.range_succ]

theorem peek_pos (s : Stack) (h : 0 < s.top) :
    s.peek = arrayGet s.data (s.top - 1) := by
  have : s.top ≠ 0 := by omega
  simp [peek, this]

theorem getLast?_contents (s : Stack) (h : 0 < s.top) :
    s.contents.getLast? = some s.peek := by
  rw [contents_eq_pop s h, peek_pos s h]
  simp

theorem peek_push (s : Stack) (v : Val) : (s.push v).peek = v := by
  simp [peek, push, arrayGet_arraySet_self]

end Stack

/-! ## Property reads -/


theorem getProp_isSome_iff {α : Type} (obj : List (String × α)) (key : String) :
    (getProp obj key).isSome = true ↔ key ∈ keys obj := by
  induction obj with
  | nil => simp [getProp, keys]
  | cons p rest ih =>
    obtain ⟨k, a⟩ := p
    by_cases hk : key = k
    · subst hk
      simp [getProp, keys, List.lookup]
    · have hbeq : (key == k) = false := by simpa using hk
      simp only [getProp, keys, List.lookup, hbeq, List.map_cons, List.mem_cons, hk,
        false_or] at ih ⊢
      exact ih

theorem getProp_eq_none_iff {α : Type} (obj : List (String × α)) (key : String) :
    getProp obj key = none ↔ key ∉ keys obj := by
  rw [← getProp_isSome_iff]
  cases getProp obj key <;> simp

theorem readState_own (states : Table) (key : String) (r : StateRecord)
    (h : getProp states key = some r) : readState states key = some (.record r) := by
  simp [readState, h]

theorem readState_of_mem (states : Table) (key : String) (h : key ∈ keys states) :
    ∃ r, getProp states key = some r ∧ readState states key = some (.record r) := by
  have hs := (getProp_isSome_iff states key).mpr h
  obtain ⟨r, hr⟩ := Option.isSome_iff_exists.mp hs
  exact ⟨r, hr, readState_own states key r hr⟩

theorem readState_inherited (states : Table) (key : String) (h : key ∉ keys states) :
    readState states key = (getProp objectPrototype key).map Entry.builtin := by
  simp [readState, (getProp_eq_none_iff states key).mpr h]

theorem readState_none (states : Table) (key : String) (h : key ∉ keys states)
    (hproto : key ∉ keys objectPrototype) : readState states key = none := by
  rw [readState_inherited states key h, (getProp_eq_none_iff objectPrototype key).mpr hproto]
  rfl

theorem readTarget_own (transitions : List (String × String)) (event t : String)
    (h : getProp transitions event = some t) : readTarget transitions event = some t := by
  simp [readTarget, h]

theorem readTarget_none (transitions : List (String × String)) (event : String)
    (h : event ∉ keys transitions) (hproto : event ∉ keys objectPrototype) :
    readTarget transitions event = none := by
  simp [readTarget, (getProp_eq_none_iff transitions event).mpr h,
    (getProp_eq_none_iff objectPrototype event).mpr hproto]

/-! ## The methods of `FSM` on the histories -/

namespace Stack

theorem peek_eq_getLast? (s : Stack) : s.peek = s.contents.getLast?.join := by
  by_cases h : 0 < s.top
  · rw [getLast?_contents s h]; rfl
  · have h0 : s.top = 0 := by omega
    simp [peek, contents, h0]

end Stack

namespace FSM

theorem changeState_of_mem (m : FSM) (state : String) (h : state ∈ keys m.states) :
    m.changeState (some state) =
      (.ok (), { m with statesDone := m.statesDone.push (some state)
                        statesUndone := m.statesUndone.clear }) := by
  obtain ⟨r, _, hr⟩ := readState_of_mem m.states state h
  simp [changeState, propertyKey, hr]

theorem changeState_of_not_mem (m : FSM) (state : String) (h : state ∉ keys m.states)
    (hproto : state ∉ keys objectPrototype) :
    m.changeState (some state) = (.error .unknownState, m) := by
  simp [changeState, propertyKey, readState_none m.states state h hproto]

theorem undo_of_lt (m : FSM) (h : 1 < m.statesDone.top) :
    m.undo = (.ok true,
      { m with statesDone := ⟨m.statesDone.data, m.statesDone.top - 1⟩
               statesUndone :=
                 m.statesUndone.push (arrayGet m.statesDone.data (m.statesDone.top - 1)) }) := by
  have hp := Stack.pop_pos m.statesDone (by omega)
  simp [undo, Stack.length, h, hp]

theorem undo_of_le (m : FSM) (h : m.statesDone.top ≤ 1) : m.undo = (.ok false, m) := by
  have : ¬ 1 < m.statesDone.top := by omega
  simp [undo, Stack.length, this]

theorem redo_of_pos (m : FSM) (h : 0 < m.statesUndone.top) :
    m.redo = (.ok true,
      { m with statesDone :=
                 m.statesDone.push (arrayGet m.statesUndone.data (m.statesUndone.top - 1))
               statesUndone := ⟨m.statesUndone.data, m.statesUndone.top - 1⟩ }) := by
  have hp := Stack.pop_pos m.statesUndone h
  simp [redo, Stack.length, h, hp]

theorem redo_of_zero (m : FSM) (h : m.statesUndone.top = 0) : m.redo = (.ok false, m) := by
  simp [redo, Stack.length, h]

/-- What a call of `undo()` that returns `true` does to the two histories. -/
theorem undo_true_contents (m m1 : FSM) (h : m.undo = (.ok true, m1)) :
    ∃ v, m.statesDone.contents = m1.statesDone.contents ++ [v] ∧
      m1.statesUndone.contents = m.statesUndone.contents ++ [v] ∧
      m1.states = m.states ∧ m1.initialState = m.initialState := by
  by_cases hlt : 1 < m.statesDone.top
  · rw [undo_of_lt m hlt] at h
    have hm : m1 = _ := (Prod.mk.inj h).2.symm
    subst hm
    exact ⟨_, Stack.contents_eq_pop m.statesDone (by omega), Stack.contents_push _ _, rfl, rfl⟩
  · rw [undo_of_le m (by omega)] at h
    simp at h

/-- A call of `redo()` on a machine whose undone history ends in `v`. -/
theorem redo_of_contents (m : FSM) (u : List Val) (v : Val)
    (h : m.statesUndone.contents = u ++ [v]) :
    ∃ m1, m.redo = (.ok true, m1) ∧
      m1.statesDone.contents = m.statesDone.contents ++ [v] ∧
      m1.statesUndone.contents = u ∧
      m1.states = m.states ∧ m1.initialState = m.initialState := by
  have hpos : 0 < m.statesUndone.top := by
    rw [← Stack.length_contents, h]; simp
  have hc := Stack.contents_eq_pop m.statesUndone hpos
  rw [h] at hc
  have hv := List.append_inj_right' hc rfl
  have hu := List.append_inj_left' hc rfl
  refine ⟨_, redo_of_pos m hpos, ?_, hu.symm, rfl, rfl⟩
  simp only [Stack.contents_push]
  rw [List.singleton_inj.mp hv]

end FSM

/-! ## Forward moves, then undo -/


/-- A successful `changeState` pushes one slot on `done`, above every slot
already in use, and empties `undone`. -/
theorem changeState_ok (m m1 : FSM) (state : Val)
    (h : m.changeState state = (.ok (), m1)) :
    m1 = { m with statesDone := m.statesDone.push state
                  statesUndone := m.statesUndone.clear } := by
  unfold FSM.changeState at h
  split at h
  · simp at h
  · exact (Prod.mk.inj h).2.symm

theorem truthy_eq_some (v : Val) (h : truthy v = true) : ∃ s, v = some s := by
  cases v with
  | none => simp [truthy] at h
  | some s => exact ⟨s, rfl⟩

/-- The call `trigger(event)` on the record of the current state. -/
theorem trigger_record (m : FSM) (event : String) (record : StateRecord)
    (h : readState m.states (propertyKey m.getState) = some (.record record)) :
    m.trigger event =
      if truthy (readTarget record.transitions event) then
        match m.changeState (readTarget record.transitions event) with
        | (.ok (), m1) => (.ok (), { m1 with statesUndone := m1.statesUndone.clear })
        | (.error e, m1) => (.error e, m1)
      else (.error .invalidTransition, m) := by
  simp only [FSM.trigger, h]

/-- The four outcomes of `trigger(event)`: one of three errors with the
machine left as it was, or a value pushed on done and undone emptied. -/
theorem trigger_result (m : FSM) (event : String) :
    m.trigger event = (.error .typeError, m) ∨
      m.trigger event = (.error .invalidTransition, m) ∨
      m.trigger event = (.error .unknownState, m) ∨
      ∃ state, m.trigger event =
        (.ok (), { m with statesDone := m.statesDone.push (some state)
                          statesUndone := m.statesUndone.clear }) := by
  cases hrs : readState m.states (propertyKey m.getState) with
  | none => left; simp only [FSM.trigger, hrs]
  | some entry =>
    cases entry with
    | builtin text => left; simp only [FSM.trigger, hrs]
    | record record =>
      rw [trigger_record m event record hrs]
      by_cases htruthy : truthy (readTarget record.transitions event) = true
      · obtain ⟨state, hstate⟩ := truthy_eq_some _ htruthy
        rw [hstate] at htruthy ⊢
        by_cases hnone : (readState m.states (propertyKey (some state))).isNone = true
        · right; right; left
          simp [htruthy, FSM.changeState, hnone]
        · right; right; right
          refine ⟨state, ?_⟩
          simp [htruthy, FSM.changeState, hnone]
          rfl
      · right; left
        simp [htruthy]

/-- A successful `trigger` is a successful `changeState` of some state. -/
theorem trigger_ok (m m1 : FSM) (event : String) (h : m.trigger event = (.ok (), m1)) :
    ∃ state, m1 = { m with statesDone := m.statesDone.push (some state)
                           statesUndone := m.statesUndone.clear } := by
  rcases trigger_result m event with hr | hr | hr | ⟨state, hr⟩
  · rw [hr] at h; simp at h
  · rw [hr] at h; simp at h
  · rw [hr] at h; simp at h
  · rw [hr] at h
    exact ⟨state, (Prod.mk.inj h).2.symm⟩

/-- A `trigger` that throws leaves the machine as it was. -/
theorem trigger_error (m m1 : FSM) (event : String) (e : FsmError)
    (h : m.trigger event = (.error e, m1)) : m1 = m := by
  rcases trigger_result m event with hr | hr | hr | ⟨state, hr⟩
  · rw [hr] at h; exact (Prod.mk.inj h).2.symm
  · rw [hr] at h; exact (Prod.mk.inj h).2.symm
  · rw [hr] at h; exact (Prod.mk.inj h).2.symm
  · rw [hr] at h; simp at h

theorem applyForward_ok (m m1 : FSM) (f : Forward) (h : applyForward m f = (.ok (), m1)) :
    ∃ state, m1 = { m with statesDone := m.statesDone.push (some state)
                           statesUndone := m.statesUndone.clear } := by
  cases f with
  | changeState state => exact ⟨state, changeState_ok m m1 (some state) h⟩
  | trigger event => exact trigger_ok m m1 event h

/-- Successful forward moves add one slot each to `done` and keep the slots
that were in use. -/
theorem runForward_some (fs : List Forward) (m m1 : FSM) (h : runForward m fs = some m1) :
    m1.statesDone.top = m.statesDone.top + fs.length ∧
      ∀ j, j < m.statesDone.top →
        arrayGet m1.statesDone.data j = arrayGet m.statesDone.data j := by
  induction fs generalizing m with
  | nil =>
    simp only [runForward, Option.some.injEq] at h
    subst h
    exact ⟨rfl, fun _ _ => rfl⟩
  | cons f rest ih =>
    simp only [runForward] at h
    split at h
    · next m2 hf =>
      obtain ⟨state, hm2⟩ := applyForward_ok m m2 f hf
      obtain ⟨ht, hd⟩ := ih m2 h
      subst hm2
      refine ⟨?_, fun j hj => ?_⟩
      · rw [ht]; simp [Stack.push]; omega
      · rw [hd j (by simp [Stack.push]; omega)]
        exact arrayGet_arraySet_lt _ _ _ _ hj
    · simp at h

/-- With more than `k` slots in use on `done`, `k` calls of `undo()` all
return `true` and only lower the top of `done` by `k`. -/
theorem undoTimes_of_lt (k : Nat) (m : FSM) (h : k < m.statesDone.top) :
    ∃ m1, undoTimes k m = some m1 ∧
      m1.statesDone = ⟨m.statesDone.data, m.statesDone.top - k⟩ := by
  induction k generalizing m with
  | zero => exact ⟨m, rfl, rfl⟩
  | succ k ih =>
    simp only [undoTimes, FSM.undo_of_lt m (by omega)]
    obtain ⟨m1, h1, h2⟩ := ih
      { m with statesDone := ⟨m.statesDone.data, m.statesDone.top - 1⟩
               statesUndone :=
                 m.statesUndone.push (arrayGet m.statesDone.data (m.statesDone.top - 1)) }
      (by simp; omega)
    refine ⟨m1, h1, ?_⟩
    rw [h2]
    simp
    omega

/-- C1. From a machine freshly constructed with initial state `S`, after any
sequence of `N` successful `trigger`/`changeState` calls, `N` calls of
`undo()` all return `true`, `getState()` is then `S`, and one more `undo()`
returns `false` and leaves the machine as it is.  With no forward move this
is: right after construction `getState()` is `S` and `undo()` is `false`. -/
theorem undo_all_forward_moves (S : String) (states : Table) (fs : List Forward)
    (m : FSM) (h : runForward (FSM.create S states) fs = some m) :
    ∃ m1, undoTimes fs.length m = some m1 ∧ m1.getState = some S ∧
      m1.undo = (.ok false, m1) := by
  obtain ⟨ht, hd⟩ := runForward_some fs _ m h
  have htop : m.statesDone.top = 1 + fs.length := by rw [ht]; rfl
  obtain ⟨m1, h1, h2⟩ := undoTimes_of_lt fs.length m (by omega)
  have htop1 : m1.statesDone.top = 1 := by rw [h2]; simp; omega
  refine ⟨m1, h1, ?_, FSM.undo_of_le m1 (by omega)⟩
  have h0 : arrayGet m.statesDone.data 0 = some S := by
    rw [hd 0 Nat.zero_lt_one]
    rfl
  rw [FSM.getState, Stack.peek_pos _ (by omega), htop1, h2]
  exact h0

theorem undo_all_forward_moves_witness :
    runForward (FSM.create "A" abcTable) [.trigger "go", .changeState "A"] =
        some (((FSM.create "A" abcTable).trigger "go").2.changeState (some "A")).2 ∧
      ∃ m1, undoTimes 2
          (((FSM.create "A" abcTable).trigger "go").2.changeState (some "A")).2 =
          some m1 ∧ m1.getState = some "A" ∧ m1.undo = (.ok false, m1) :=
  ⟨by decide, undo_all_forward_moves "A" abcTable [.trigger "go", .changeState "A"] _
    (by decide)⟩

/-! ## Forward moves and the redo history -/


/-- C2. Whatever the two histories hold, after a successful `trigger(event)`
or `changeState(target)` the undone history is empty, and a `redo()` called
next returns `false` and leaves the machine, hence `getState()`, as it is. -/
theorem forward_clears_redo (m m1 : FSM) (f : Forward)
    (h : applyForward m f = (.ok (), m1)) :
    m1.statesUndone.contents = [] ∧ m1.redo = (.ok false, m1) ∧
      m1.redo.2.getState = m1.getState := by
  obtain ⟨state, hm⟩ := applyForward_ok m m1 f h
  have htop : m1.statesUndone.top = 0 := by rw [hm]; rfl
  have hredo := FSM.redo_of_zero m1 htop
  refine ⟨?_, hredo, by rw [hredo]⟩
  rw [hm]
  exact Stack.contents_clear _

theorem forward_clears_redo_witness :
    applyForward ((FSM.create "A" abcTable).trigger "go").2.undo.2 (.trigger "go") =
        (.ok (), (((FSM.create "A" abcTable).trigger "go").2.undo.2.trigger "go").2) ∧
      (((FSM.create "A" abcTable).trigger "go").2.undo.2.trigger "go").2.statesUndone.contents
        = [] ∧
      (((FSM.create "A" abcTable).trigger "go").2.undo.2.trigger "go").2.redo =
        (.ok false, (((FSM.create "A" abcTable).trigger "go").2.undo.2.trigger "go").2) ∧
      (((FSM.create "A" abcTable).trigger "go").2.undo.2.trigger "go").2.redo.2.getState =
        (((FSM.create "A" abcTable).trigger "go").2.undo.2.trigger "go").2.getState :=
  ⟨rfl, forward_clears_redo ((FSM.create "A" abcTable).trigger "go").2.undo.2
    (((FSM.create "A" abcTable).trigger "go").2.undo.2.trigger "go").2 (.trigger "go") rfl⟩

/-! ## Undo, then redo -/

theorem redoTimes_succ (k : Nat) (m : FSM) :
    redoTimes (k + 1) m = (redoTimes k m).bind (redoTimes 1) := by
  induction k generalizing m with
  | zero => simp [redoTimes]
  | succ k ih =>
    rw [redoTimes]
    split
    · next m1 hr =>
      rw [ih m1]
      conv_rhs => rw [redoTimes]
      simp [hr]
    · next hne =>
      conv_rhs => rw [redoTimes]
      split
      · next m1 hr => exact absurd hr (hne m1)
      · rfl

/-- C3. If `k` calls of `undo()` in a row all return `true`, the `k` calls of
`redo()` that follow all return `true` and bring the done and undone
histories, hence `getState()`, back to what they were before the undos.  It
holds from every machine state, reachable or not, and for every `k`. -/
theorem redo_restores_undone (k : Nat) (m m1 : FSM) (h : undoTimes k m = some m1) :
    ∃ m2, redoTimes k m1 = some m2 ∧
      m2.statesDone.contents = m.statesDone.contents ∧
      m2.statesUndone.contents = m.statesUndone.contents ∧
      m2.getState = m.getState := by
  suffices hs : ∃ m2, redoTimes k m1 = some m2 ∧
      m2.statesDone.contents = m.statesDone.contents ∧
      m2.statesUndone.contents = m.statesUndone.contents by
    obtain ⟨m2, h1, h2, h3⟩ := hs
    refine ⟨m2, h1, h2, h3, ?_⟩
    rw [FSM.getState, FSM.getState, Stack.peek_eq_getLast?, Stack.peek_eq_getLast?, h2]
  induction k generalizing m with
  | zero =>
    simp only [undoTimes, Option.some.injEq] at h
    subst h
    exact ⟨m, rfl, rfl, rfl⟩
  | succ k ih =>
    rw [undoTimes] at h
    split at h
    · next ma hu =>
      obtain ⟨v, hd, hun, _, _⟩ := FSM.undo_true_contents m ma hu
      obtain ⟨mb, hb, hbd, hbu⟩ := ih ma h
      obtain ⟨mc, hc, hcd, hcu, _, _⟩ :=
        FSM.redo_of_contents mb m.statesUndone.contents v (by rw [hbu, hun])
      refine ⟨mc, ?_, ?_, hcu⟩
      · rw [redoTimes_succ, hb]
        simp [redoTimes, hc]
      · rw [hcd, hbd, hd]
    · simp at h

theorem redo_restores_undone_witness :
    undoTimes 2 (run (FSM.create "A" abcTable) [.trigger "go", .trigger "go"]) =
        some (run (FSM.create "A" abcTable) [.trigger "go", .trigger "go", .undo, .undo]) ∧
      ∃ m2, redoTimes 2
          (run (FSM.create "A" abcTable) [.trigger "go", .trigger "go", .undo, .undo]) =
            some m2 ∧
        m2.statesDone.contents =
          (run (FSM.create "A" abcTable) [.trigger "go", .trigger "go"]).statesDone.contents ∧
        m2.statesUndone.contents =
          (run (FSM.create "A" abcTable) [.trigger "go", .trigger "go"]).statesUndone.contents ∧
        m2.getState = (run (FSM.create "A" abcTable) [.trigger "go", .trigger "go"]).getState :=
  ⟨by decide, redo_restores_undone 2 _ _ (by decide)⟩

/-! ## Errors of `changeState` and `trigger` -/

/-- When `changeState` throws: exactly when its argument is neither a key of
the table nor the name of a property inherited from `Object.prototype`; it
throws no other error and leaves the machine as it was. -/
theorem changeState_throws_iff (m : FSM) (target : String) :
    ((m.changeState (some target)).1 = .error .unknownState ↔
        target ∉ keys m.states ∧ target ∉ keys objectPrototype) ∧
      ((m.changeState (some target)).1 = .ok () ∨
        m.changeState (some target) = (.error .unknownState, m)) := by
  by_cases hmem : target ∈ keys m.states
  · rw [FSM.changeState_of_mem m target hmem]
    simp [hmem]
  · by_cases hproto : target ∈ keys objectPrototype
    · have hsome := (getProp_isSome_iff objectPrototype target).mpr hproto
      obtain ⟨text, htext⟩ := Option.isSome_iff_exists.mp hsome
      have hread : readState m.states target = some (.builtin text) := by
        rw [readState_inherited m.states target hmem, htext]
        rfl
      simp [FSM.changeState, propertyKey, hread, hproto]
    · rw [FSM.changeState_of_not_mem m target hmem hproto]
      simp [hmem, hproto]

/-- C4, at a failing input. In the table of the specification's scenario
`toString` is not a key, yet `changeState("toString")` does not throw: the
test `!this.states[state]` finds the function that the table inherits from
`Object.prototype`.  The name is pushed on done and becomes `getState()`. -/
theorem changeState_accepts_inherited :
    "toString" ∉ keys (FSM.create "A" abcTable).states ∧
      ((FSM.create "A" abcTable).changeState (some "toString")).1 = .ok () ∧
      ((FSM.create "A" abcTable).changeState (some "toString")).2.statesDone.contents =
        [some "A", some "toString"] ∧
      ((FSM.create "A" abcTable).changeState (some "toString")).2.getState =
        some "toString" := by
  refine ⟨by decide, rfl, by decide, by decide⟩

/-- C5, at a failing input. In the table of the specification's scenario the
current state `A` is declared and defines no transition for `toString`, yet
`trigger("toString")` throws "This state doesn't exist." and not "This event
can't be triggered.": the read `transitions[event]` finds the function
inherited from `Object.prototype`, which is truthy and is handed to
`changeState`. -/
theorem trigger_inherited_event :
    (FSM.create "A" abcTable).getState = some "A" ∧
      getProp (FSM.create "A" abcTable).states "A" = some ⟨[("go", "B")]⟩ ∧
      "toString" ∉ keys (⟨[("go", "B")]⟩ : StateRecord).transitions ∧
      (FSM.create "A" abcTable).trigger "toString" =
        (.error .unknownState, FSM.create "A" abcTable) ∧
      FsmError.message .unknownState = "This state doesn't exist." := by
  refine ⟨by decide, by decide, by decide, rfl, rfl⟩

/-! ## `trigger` against `changeState` -/


/-- C6, as the claim states it, fails: in `emptyNameTable` the current state
`A` is declared, its event `e` has the declared state `""` as target, and
`changeState("")` succeeds, yet `trigger("e")` throws "This event can't be
triggered." because the empty string is falsy. -/
theorem trigger_empty_target_differs :
    (FSM.create "A" emptyNameTable).getState = some "A" ∧
      getProp (FSM.create "A" emptyNameTable).states "A" = some ⟨[("e", "")]⟩ ∧
      getProp (⟨[("e", "")]⟩ : StateRecord).transitions "e" = some "" ∧
      "" ∈ keys (FSM.create "A" emptyNameTable).states ∧
      ((FSM.create "A" emptyNameTable).changeState (some "")).1 = .ok () ∧
      (FSM.create "A" emptyNameTable).trigger "e" =
        (.error .invalidTransition, FSM.create "A" emptyNameTable) ∧
      (FSM.create "A" emptyNameTable).trigger "e" ≠
        (FSM.create "A" emptyNameTable).changeState (some "") := by
  refine ⟨by decide, by decide, by decide, by decide, rfl, rfl, ?_⟩
  intro h
  have h1 : ((FSM.create "A" emptyNameTable).trigger "e").1 = .error .invalidTransition := rfl
  have h2 : ((FSM.create "A" emptyNameTable).changeState (some "")).1 = .ok () := rfl
  rw [h, h2] at h1
  simp at h1

/-- C6, amended. When the current state `cur` is declared and its transition
for `event` is a declared state `t` that is not the empty string,
`trigger(event)` succeeds and returns and leaves exactly what
`changeState(t)` does from the same machine. -/
theorem trigger_eq_changeState (m : FSM) (cur event t : String) (record : StateRecord)
    (hcur : m.getState = some cur) (hrec : getProp m.states cur = some record)
    (ht : getProp record.transitions event = some t) (hdecl : t ∈ keys m.states)
    (hne : t ≠ "") :
    (m.trigger event).1 = .ok () ∧ m.trigger event = m.changeState (some t) := by
  have hc := FSM.changeState_of_mem m t hdecl
  have hread : readState m.states (propertyKey m.getState) = some (.record record) := by
    rw [hcur]
    exact readState_own m.states cur record hrec
  have htruthy : truthy (some t) = true := by simp [truthy, hne]
  have htr : m.trigger event = m.changeState (some t) := by
    rw [trigger_record m event record hread, readTarget_own _ _ _ ht, if_pos htruthy, hc]
    rfl
  exact ⟨by rw [htr, hc], htr⟩

theorem trigger_eq_changeState_witness :
    (FSM.create "A" abcTable).getState = some "A" ∧
      getProp (FSM.create "A" abcTable).states "A" = some ⟨[("go", "B")]⟩ ∧
      getProp (⟨[("go", "B")]⟩ : StateRecord).transitions "go" = some "B" ∧
      "B" ∈ keys (FSM.create "A" abcTable).states ∧ "B" ≠ "" ∧
      ((FSM.create "A" abcTable).trigger "go").1 = .ok () ∧
      (FSM.create "A" abcTable).trigger "go" =
        (FSM.create "A" abcTable).changeState (some "B") :=
  ⟨by decide, by decide, by decide, by decide, by decide,
    trigger_eq_changeState (FSM.create "A" abcTable) "A" "go" "B" ⟨[("go", "B")]⟩
      (by decide) (by decide) (by decide) (by decide) (by decide)⟩

/-- C7. For a `target` that is a key of the transition table,
`changeState(target)` succeeds whatever the transitions of the current state
are: the done history becomes the old one with `target` appended, so
`getState()` is `target` and the history is one longer, and the undone history
becomes empty. -/
theorem changeState_declared (m : FSM) (target : String) (h : target ∈ keys m.states) :
    (m.changeState (some target)).1 = .ok () ∧
      (m.changeState (some target)).2.statesDone.contents =
        m.statesDone.contents ++ [some target] ∧
      (m.changeState (some target)).2.getState = some target ∧
      (m.changeState (some target)).2.statesDone.contents.length =
        m.statesDone.contents.length + 1 ∧
      (m.changeState (some target)).2.statesUndone.contents = [] := by
  rw [FSM.changeState_of_mem m target h]
  refine ⟨rfl, Stack.contents_push _ _, Stack.peek_push _ _, ?_, Stack.contents_clear _⟩
  simp [Stack.contents_push]

theorem changeState_declared_witness :
    "C" ∈ keys (FSM.create "A" abcTable).states ∧
      ((FSM.create "A" abcTable).changeState (some "C")).1 = .ok () ∧
      ((FSM.create "A" abcTable).changeState (some "C")).2.statesDone.contents =
        (FSM.create "A" abcTable).statesDone.contents ++ [some "C"] ∧
      ((FSM.create "A" abcTable).changeState (some "C")).2.getState = some "C" ∧
      ((FSM.create "A" abcTable).changeState (some "C")).2.statesDone.contents.length =
        (FSM.create "A" abcTable).statesDone.contents.length + 1 ∧
      ((FSM.create "A" abcTable).changeState (some "C")).2.statesUndone.contents = [] :=
  ⟨by decide, changeState_declared (FSM.create "A" abcTable) "C" (by decide)⟩

/-! ## The done history is never empty -/


theorem historyOk_create (initial : String) (states : Table) :
    HistoryOk (FSM.create initial states) := by
  simp [HistoryOk, FSM.create, Stack.contents_push, Stack.contents_create]

theorem historyOk_forward (m : FSM) (state : String) (h : HistoryOk m) :
    HistoryOk { m with statesDone := m.statesDone.push (some state)
                       statesUndone := m.statesUndone.clear } := by
  obtain ⟨_, h2, _⟩ := h
  refine ⟨by simp [Stack.contents_push], ?_, by simp [Stack.contents_clear]⟩
  intro v hv
  simp only [Stack.contents_push, List.mem_append, List.mem_singleton] at hv
  rcases hv with hv | hv
  · exact h2 v hv
  · simp [hv]

theorem changeState_snd (m : FSM) (state : Val) :
    (m.changeState state).2 = m ∨
      (m.changeState state).2 =
        { m with statesDone := m.statesDone.push state
                 statesUndone := m.statesUndone.clear } := by
  unfold FSM.changeState
  split
  · exact Or.inl rfl
  · exact Or.inr rfl

theorem trigger_snd (m : FSM) (event : String) :
    (m.trigger event).2 = m ∨
      ∃ state, (m.trigger event).2 =
        { m with statesDone := m.statesDone.push (some state)
                 statesUndone := m.statesUndone.clear } := by
  rcases trigger_result m event with hr | hr | hr | ⟨state, hr⟩
  · rw [hr]; exact Or.inl rfl
  · rw [hr]; exact Or.inl rfl
  · rw [hr]; exact Or.inl rfl
  · rw [hr]; exact Or.inr ⟨state, rfl⟩

theorem historyOk_step (m : FSM) (c : Call) (h : HistoryOk m) : HistoryOk (step m c) := by
  cases c with
  | changeState state =>
    rcases changeState_snd m (some state) with hs | hs
    · simp only [step, hs]; exact h
    · simp only [step, hs]; exact historyOk_forward m state h
  | trigger event =>
    rcases trigger_snd m event with hs | ⟨state, hs⟩
    · simp only [step, hs]; exact h
    · simp only [step, hs]; exact historyOk_forward m state h
  | reset =>
    obtain ⟨_, _, h3⟩ := h
    refine ⟨?_, ?_, h3⟩ <;>
      simp [step, FSM.reset, Stack.contents_push, Stack.contents_clear]
  | clearHistory =>
    refine ⟨?_, ?_, ?_⟩ <;>
      simp [step, FSM.clearHistory, Stack.contents_push, Stack.contents_clear]
  | undo =>
    by_cases hlt : 1 < m.statesDone.top
    · have hu := FSM.undo_of_lt m hlt
      obtain ⟨v, hd, hun, _, _⟩ := FSM.undo_true_contents m _ hu
      obtain ⟨_, h2, h3⟩ := h
      simp only [step, hu]
      refine ⟨?_, ?_, ?_⟩
      · intro hnil
        have hl := congrArg List.length hd
        rw [Stack.length_contents, hnil] at hl
        simp at hl
        omega
      · intro w hw
        exact h2 w (by rw [hd]; exact List.mem_append_left _ hw)
      · intro w hw
        rw [hun, List.mem_append, List.mem_singleton] at hw
        rcases hw with hw | hw
        · exact h3 w hw
        · exact h2 w (by rw [hd, hw]; simp)
    · simp only [step, FSM.undo_of_le m (by omega)]; exact h
  | redo =>
    by_cases hpos : 0 < m.statesUndone.top
    · obtain ⟨h1, h2, h3⟩ := h
      have hc := Stack.contents_eq_pop m.statesUndone hpos
      simp only [step, FSM.redo_of_pos m hpos]
      refine ⟨by simp [Stack.contents_push], ?_, ?_⟩
      · intro w hw
        simp only [Stack.contents_push, List.mem_append, List.mem_singleton] at hw
        rcases hw with hw | hw
        · exact h2 w hw
        · exact h3 w (by rw [hc, hw]; simp)
      · intro w hw
        exact h3 w (by rw [hc]; exact List.mem_append_left _ hw)
    · simp only [step, FSM.redo_of_zero m (by omega)]; exact h

theorem historyOk_run (calls : List Call) (m : FSM) (h : HistoryOk m) :
    HistoryOk (run m calls) := by
  induction calls generalizing m with
  | nil => exact h
  | cons c rest ih => exact ih (step m c) (historyOk_step m c h)

/-- C8. In every machine reachable from construction by any sequence of
`changeState`, `trigger`, `reset`, `clearHistory`, `undo` and `redo` calls,
returning or throwing, the done history holds at least one element, and
`getState()` returns its last element, which is a string and not
`undefined`. -/
theorem reachable_done_nonempty (m : FSM) (h : Reachable m) :
    1 ≤ m.statesDone.contents.length ∧
      m.statesDone.contents.getLast? = some m.getState ∧
      ∃ s, m.getState = some s := by
  obtain ⟨initial, states, calls, rfl⟩ := h
  obtain ⟨h1, h2, _⟩ := historyOk_run calls _ (historyOk_create initial states)
  have hlen : 1 ≤ (run (FSM.create initial states) calls).statesDone.contents.length :=
    List.length_pos.mpr h1
  have hlast := Stack.getLast?_contents _ (by rw [← Stack.length_contents]; exact hlen)
  refine ⟨hlen, hlast, ?_⟩
  have hmem := h2 _ (List.mem_of_getLast?_eq_some hlast)
  exact Option.ne_none_iff_exists'.mp hmem

theorem reachable_done_nonempty_witness :
    Reachable (run (FSM.create "A" abcTable) [.trigger "go", .undo, .undo, .reset, .redo]) ∧
      1 ≤ (run (FSM.create "A" abcTable)
        [.trigger "go", .undo, .undo, .reset, .redo]).statesDone.contents.length ∧
      (run (FSM.create "A" abcTable)
        [.trigger "go", .undo, .undo, .reset, .redo]).statesDone.contents.getLast? =
        some (run (FSM.create "A" abcTable)
          [.trigger "go", .undo, .undo, .reset, .redo]).getState ∧
      ∃ s, (run (FSM.create "A" abcTable)
        [.trigger "go", .undo, .undo, .reset, .redo]).getState = some s :=
  ⟨⟨"A", abcTable, _, rfl⟩, reachable_done_nonempty _ ⟨"A", abcTable, _, rfl⟩⟩

/-! ## `reset` and `clearHistory` -/


/-- C9. From every machine state, `reset()` makes the done history exactly
`[initial]`, so `getState()` is `initial` and `undo()` returns `false`, and
leaves the undone history untouched, so `redo()` returns after `reset()` what
it would have returned before it: a redo that was available still is. -/
theorem reset_keeps_undone (m : FSM) :
    m.reset.statesDone.contents = [some m.initialState] ∧
      m.reset.getState = some m.initialState ∧
      m.reset.undo = (.ok false, m.reset) ∧
      m.reset.statesUndone = m.statesUndone ∧
      m.reset.statesUndone.contents = m.statesUndone.contents ∧
      m.reset.redo.1 = m.redo.1 := by
  refine ⟨?_, Stack.peek_push _ _, FSM.undo_of_le _ (Nat.le_refl 1), rfl, rfl, ?_⟩
  · simp [FSM.reset, Stack.contents_push, Stack.contents_clear]
  · by_cases hpos : 0 < m.statesUndone.top
    · rw [FSM.redo_of_pos m hpos, FSM.redo_of_pos m.reset hpos]
    · rw [FSM.redo_of_zero m (by omega), FSM.redo_of_zero m.reset (by simp [FSM.reset]; omega)]

/-- C10. From every machine state, so also right after a successful
`undo()`, `clearHistory()` leaves the done history `[initial]` and the undone
history empty; it is `reset()` followed by emptying `undone`; afterwards
`getState()` is `initial` and both `undo()` and `redo()` return `false` and
change nothing. -/
theorem clearHistory_eq_reset_clear (m : FSM) :
    m.clearHistory = resetThenClearUndone m ∧
      m.clearHistory.statesDone.contents = [some m.initialState] ∧
      m.clearHistory.statesUndone.contents = [] ∧
      m.clearHistory.getState = some m.initialState ∧
      m.clearHistory.undo = (.ok false, m.clearHistory) ∧
      m.clearHistory.redo = (.ok false, m.clearHistory) := by
  refine ⟨rfl, ?_, Stack.contents_clear _, Stack.peek_push _ _,
    FSM.undo_of_le _ (Nat.le_refl 1), FSM.redo_of_zero _ rfl⟩
  simp [FSM.clearHistory, Stack.contents_push, Stack.contents_clear]

/-! ## `undo` and `redo` step by step -/

/-- C11. The call `undo()` never throws.  When the done history holds more
than one element, it returns `true`, removes the last element of done and
appends it to undone, and `getState()` becomes the new last element of done;
when it holds exactly one element, it returns `false` and leaves the machine
as it is.  The throwing branch of `Stack.pop` is never taken. -/
theorem undo_never_throws (m : FSM) :
    (∃ b, m.undo.1 = .ok b) ∧
      (1 < m.statesDone.contents.length →
        m.undo.1 = .ok true ∧ (m.statesDone.pop).1 ≠ .error .noElements ∧
        ∃ v, m.statesDone.contents = m.undo.2.statesDone.contents ++ [v] ∧
          m.undo.2.statesUndone.contents = m.statesUndone.contents ++ [v] ∧
          m.undo.2.statesDone.contents.getLast? = some m.undo.2.getState) ∧
      (m.statesDone.contents.length = 1 → m.undo = (.ok false, m)) := by
  rw [Stack.length_contents]
  refine ⟨?_, fun hlt => ?_, fun h1 => FSM.undo_of_le m (by omega)⟩
  · by_cases hlt : 1 < m.statesDone.top
    · exact ⟨true, by rw [FSM.undo_of_lt m hlt]⟩
    · exact ⟨false, by rw [FSM.undo_of_le m (by omega)]⟩
  · have hu := FSM.undo_of_lt m hlt
    obtain ⟨v, hd, hun, _, _⟩ := FSM.undo_true_contents m m.undo.2 (by rw [hu])
    refine ⟨by rw [hu], ?_, v, hd, hun, ?_⟩
    · rw [Stack.pop_pos m.statesDone (by omega)]
      simp
    · apply Stack.getLast?_contents
      rw [hu]
      show 0 < m.statesDone.top - 1
      omega

theorem undo_never_throws_witness :
    1 < ((FSM.create "A" abcTable).trigger "go").2.statesDone.contents.length ∧
      ((FSM.create "A" abcTable).trigger "go").2.undo.1 = .ok true ∧
      ((FSM.create "A" abcTable).trigger "go").2.undo.2.statesDone.contents = [some "A"] ∧
      ((FSM.create "A" abcTable).trigger "go").2.undo.2.statesUndone.contents = [some "B"] ∧
      (FSM.create "A" abcTable).statesDone.contents.length = 1 ∧
      (FSM.create "A" abcTable).undo = (.ok false, FSM.create "A" abcTable) :=
  ⟨by decide,
    ((undo_never_throws ((FSM.create "A" abcTable).trigger "go").2).2.1 (by decide)).1,
    by decide, by decide, by decide,
    (undo_never_throws (FSM.create "A" abcTable)).2.2 (by decide)⟩

/-- C12. The call `redo()` never throws.  When the undone history is not
empty, it returns `true`, removes the last element of undone and appends it
to done, so that `getState()` becomes that element; when the undone history
is empty, it returns `false` and leaves the machine as it is. -/
theorem redo_never_throws (m : FSM) :
    (∃ b, m.redo.1 = .ok b) ∧
      (m.statesUndone.contents ≠ [] →
        m.redo.1 = .ok true ∧ (m.statesUndone.pop).1 ≠ .error .noElements ∧
        ∃ v, m.statesUndone.contents = m.redo.2.statesUndone.contents ++ [v] ∧
          m.redo.2.statesDone.contents = m.statesDone.contents ++ [v] ∧
          m.redo.2.getState = v) ∧
      (m.statesUndone.contents = [] → m.redo = (.ok false, m)) := by
  have hlen := Stack.length_contents m.statesUndone
  refine ⟨?_, fun hne => ?_, fun hnil => FSM.redo_of_zero m (by rw [← hlen, hnil]; rfl)⟩
  · by_cases hpos : 0 < m.statesUndone.top
    · exact ⟨true, by rw [FSM.redo_of_pos m hpos]⟩
    · exact ⟨false, by rw [FSM.redo_of_zero m (by omega)]⟩
  · have hpos : 0 < m.statesUndone.top := by
      rw [← hlen]
      exact List.length_pos.mpr hne
    have hr := FSM.redo_of_pos m hpos
    refine ⟨by rw [hr], ?_, arrayGet m.statesUndone.data (m.statesUndone.top - 1), ?_, ?_, ?_⟩
    · rw [Stack.pop_pos m.statesUndone hpos]
      simp
    · rw [hr]
      exact Stack.contents_eq_pop m.statesUndone hpos
    · rw [hr]
      exact Stack.contents_push _ _
    · rw [hr]
      exact Stack.peek_push _ _

theorem redo_never_throws_witness :
    ((FSM.create "A" abcTable).trigger "go").2.undo.2.statesUndone.contents ≠ [] ∧
      ((FSM.create "A" abcTable).trigger "go").2.undo.2.redo.1 = .ok true ∧
      ((FSM.create "A" abcTable).trigger "go").2.undo.2.redo.2.getState = some "B" ∧
      (FSM.create "A" abcTable).statesUndone.contents = [] ∧
      (FSM.create "A" abcTable).redo = (.ok false, FSM.create "A" abcTable) :=
  ⟨by decide,
    ((redo_never_throws ((FSM.create "A" abcTable).trigger "go").2.undo.2).2.1 (by decide)).1,
    by decide, by decide,
    (redo_never_throws (FSM.create "A" abcTable)).2.2 (by decide)⟩

/-- C18. Whether they return `true` or `false`, `undo()` and `redo()` keep
the timeline `done ++ reverse undone` and the sum of the lengths of the two
histories. -/
theorem undo_redo_keep_timeline (m : FSM) :
    m.undo.2.statesDone.contents ++ m.undo.2.statesUndone.contents.reverse =
        m.statesDone.contents ++ m.statesUndone.contents.reverse ∧
      m.undo.2.statesDone.contents.length + m.undo.2.statesUndone.contents.length =
        m.statesDone.contents.length + m.statesUndone.contents.length ∧
      m.redo.2.statesDone.contents ++ m.redo.2.statesUndone.contents.reverse =
        m.statesDone.contents ++ m.statesUndone.contents.reverse ∧
      m.redo.2.statesDone.contents.length + m.redo.2.statesUndone.contents.length =
        m.statesDone.contents.length + m.statesUndone.contents.length := by
  have hundo : m.undo.2.statesDone.contents ++ m.undo.2.statesUndone.contents.reverse =
      m.statesDone.contents ++ m.statesUndone.contents.reverse := by
    by_cases hlt : 1 < m.statesDone.top
    · obtain ⟨v, hd, hun, _, _⟩ := FSM.undo_true_contents m _ (FSM.undo_of_lt m hlt)
      rw [FSM.undo_of_lt m hlt] at *
      rw [hd, hun]
      simp
    · rw [FSM.undo_of_le m (by omega)]
  have hredo : m.redo.2.statesDone.contents ++ m.redo.2.statesUndone.contents.reverse =
      m.statesDone.contents ++ m.statesUndone.contents.reverse := by
    by_cases hpos : 0 < m.statesUndone.top
    · rw [FSM.redo_of_pos m hpos]
      simp only [Stack.contents_push]
      rw [Stack.contents_eq_pop m.statesUndone hpos]
      simp
    · rw [FSM.redo_of_zero m (by omega)]
  refine ⟨hundo, ?_, hredo, ?_⟩
  · have := congrArg List.length hundo
    simpa using this
  · have := congrArg List.length hredo
    simpa using this

/-! ## `getStates` -/

theorem collectAll_eq (ks acc : List String) : collectAll ks acc = acc ++ ks := by
  induction ks generalizing acc with
  | nil => simp [collectAll]
  | cons k rest ih => simp [collectAll, ih]

theorem collectFor_eq (states : Table) (event : String) (ks acc : List String)
    (h : ∀ k ∈ ks, k ∈ keys states) :
    collectFor states event ks acc = .ok (acc ++ ks.filter (hasTarget states event)) := by
  induction ks generalizing acc with
  | nil => simp [collectFor]
  | cons k rest ih =>
    obtain ⟨record, _, hg⟩ := readState_of_mem states k (h k (List.mem_cons_self _ _))
    have hrest : ∀ k1 ∈ rest, k1 ∈ keys states :=
      fun k1 hk1 => h k1 (List.mem_cons_of_mem _ hk1)
    by_cases ht : truthy (readTarget record.transitions event) = true
    · simp [collectFor, hg, ht, ih _ hrest, hasTarget, List.filter_cons]
    · simp [collectFor, hg, ht, ih _ hrest, hasTarget, List.filter_cons]

theorem forInKeys_perm {α : Type} (obj : List (String × α)) :
    (forInKeys obj).Perm (keys obj) := by
  unfold forInKeys
  exact ((List.perm_insertionSort IndexLe _).append_right _).trans
    (List.filter_append_perm isArrayIndex (keys obj))

theorem forInKeys_eq_keys {α : Type} (obj : List (String × α))
    (h : ∀ k ∈ keys obj, isArrayIndex k = false) : forInKeys obj = keys obj := by
  have h1 : (keys obj).filter isArrayIndex = [] := by
    rw [List.filter_eq_nil_iff]
    intro k hk
    simp [h k hk]
  have h2 : (keys obj).filter (fun key => !isArrayIndex key) = keys obj := by
    rw [List.filter_eq_self]
    intro k hk
    simp [h k hk]
  simp [forInKeys, h1, h2]

theorem hasTarget_iff (states : Table) (event key : String)
    (hkey : key ∈ keys states) (hproto : event ∉ keys objectPrototype) :
    hasTarget states event key = true ↔
      ∃ record t, getProp states key = some record ∧
        getProp record.transitions event = some t ∧ t ≠ "" := by
  obtain ⟨record, hg, hread⟩ := readState_of_mem states key hkey
  have hnone := (getProp_eq_none_iff objectPrototype event).mpr hproto
  unfold hasTarget
  rw [hread]
  cases ht : getProp record.transitions event with
  | none => simp [truthy, readTarget, ht, hg, hnone]
  | some t => simp [truthy, readTarget, ht, hg]

/-- C13, as the claim states it, fails: in `indexKeyTable` the key `b` was
inserted before the key `1`, and `getStates()` returns `1` before `b`. -/
theorem getStates_index_key_first :
    keys (FSM.create "b" indexKeyTable).states = ["b", "1"] ∧
      (FSM.create "b" indexKeyTable).getStates none = .ok ["1", "b"] ∧
      (FSM.create "b" indexKeyTable).getStates none ≠
        .ok (keys (FSM.create "b" indexKeyTable).states) := by
  refine ⟨by decide, rfl, ?_⟩
  intro h
  have h1 : (FSM.create "b" indexKeyTable).getStates none = .ok ["1", "b"] := rfl
  rw [h1] at h
  exact absurd (Except.ok.inj h) (by decide)

/-- C13, amended. For every transition table (its keys are distinct),
`getStates()` without argument returns, without throwing, the keys of the
table, each exactly once, in the enumeration order of the object: the keys
that are array indices first, in ascending numeric order, then the other keys
in insertion order; so in insertion order when no key is an array index.  The
result does not depend on the two histories, which the call does not touch. -/
theorem getStates_all (m : FSM) (hnodup : (keys m.states).Nodup) :
    m.getStates none = .ok (forInKeys m.states) ∧
      (forInKeys m.states).Perm (keys m.states) ∧
      (forInKeys m.states).Nodup ∧
      ((keys m.states).all (fun key => !isArrayIndex key) = true →
        forInKeys m.states = keys m.states) ∧
      ∀ done undone : Stack,
        ({ m with statesDone := done, statesUndone := undone } : FSM).getStates none =
          m.getStates none := by
  refine ⟨?_, forInKeys_perm _, (forInKeys_perm _).nodup_iff.mpr hnodup, ?_, fun _ _ => rfl⟩
  · simp [FSM.getStates, truthy, collectAll_eq]
  · intro hall
    apply forInKeys_eq_keys
    intro k hk
    have := List.all_eq_true.mp hall k hk
    simpa using this

theorem getStates_all_witness :
    (keys (FSM.create "A" abcTable).states).Nodup ∧
      (FSM.create "A" abcTable).getStates none = .ok ["A", "B", "C"] ∧
      (keys (FSM.create "b" indexKeyTable).states).Nodup ∧
      (FSM.create "b" indexKeyTable).getStates none = .ok (forInKeys indexKeyTable) :=
  ⟨by decide,
    (getStates_all (FSM.create "A" abcTable) (by decide)).1.trans
      (congrArg Except.ok
        ((getStates_all (FSM.create "A" abcTable) (by decide)).2.2.2.1 (by decide))),
    by decide, (getStates_all (FSM.create "b" indexKeyTable) (by decide)).1⟩

/-- C14, as the claim states it, fails: in `emptyNameTable` state `A` defines
the target `""` for the event `e`, and `getStates("e")` leaves `A` out,
because the empty string is falsy. -/
theorem getStates_empty_target_left_out :
    getProp (FSM.create "A" emptyNameTable).states "A" = some ⟨[("e", "")]⟩ ∧
      getProp (⟨[("e", "")]⟩ : StateRecord).transitions "e" = some "" ∧
      (FSM.create "A" emptyNameTable).getStates (some "e") = .ok [] := by
  refine ⟨by decide, by decide, rfl⟩

/-- C14, amended. For every transition table (its keys are distinct) and
every event that is neither the empty string nor the name of a property
inherited from `Object.prototype`, `getStates(event)` returns, without
throwing, exactly the declared states whose `transitions` hold a target other
than the empty string for that event: a state is in the result if and only if
it does, each at most once, in the same relative order as in `getStates()`. -/
theorem getStates_event (m : FSM) (event : String) (hne : event ≠ "")
    (hproto : event ∉ keys objectPrototype) (hnodup : (keys m.states).Nodup) :
    ∃ all result, m.getStates none = .ok all ∧ m.getStates (some event) = .ok result ∧
      result = all.filter (hasTarget m.states event) ∧
      (∀ key, key ∈ result ↔
        ∃ record t, getProp m.states key = some record ∧
          getProp record.transitions event = some t ∧ t ≠ "") ∧
      result.Nodup ∧ result.Sublist all := by
  have hall : m.getStates none = .ok (forInKeys m.states) := by
    simp [FSM.getStates, truthy, collectAll_eq]
  have hmem : ∀ k ∈ forInKeys m.states, k ∈ keys m.states :=
    fun k hk => (forInKeys_perm m.states).mem_iff.mp hk
  have hres : m.getStates (some event) =
      .ok ((forInKeys m.states).filter (hasTarget m.states event)) := by
    simp [FSM.getStates, truthy, hne, propertyKey, collectFor_eq _ _ _ _ hmem]
  have hnd : (forInKeys m.states).Nodup := (forInKeys_perm _).nodup_iff.mpr hnodup
  refine ⟨_, _, hall, hres, rfl, fun key => ?_, hnd.filter _, List.filter_sublist _⟩
  rw [List.mem_filter]
  constructor
  · intro h
    exact (hasTarget_iff m.states event key (hmem key h.1) hproto).mp h.2
  · intro h
    have hkey : key ∈ keys m.states := by
      obtain ⟨record, _, hg, _⟩ := h
      apply (getProp_isSome_iff m.states key).mp
      rw [hg]
      rfl
    exact ⟨(forInKeys_perm m.states).mem_iff.mpr hkey,
      (hasTarget_iff m.states event key hkey hproto).mpr h⟩

theorem getStates_event_witness :
    "go" ≠ "" ∧ "go" ∉ keys objectPrototype ∧
      (keys (FSM.create "A" abcTable).states).Nodup ∧
      ∃ all result, (FSM.create "A" abcTable).getStates none = .ok all ∧
        (FSM.create "A" abcTable).getStates (some "go") = .ok result ∧
        result = all.filter (hasTarget (FSM.create "A" abcTable).states "go") ∧
        (∀ key, key ∈ result ↔
          ∃ record t, getProp (FSM.create "A" abcTable).states key = some record ∧
            getProp record.transitions "go" = some t ∧ t ≠ "") ∧
        result.Nodup ∧ result.Sublist all :=
  ⟨by decide, by decide, by decide,
    getStates_event (FSM.create "A" abcTable) "go" (by decide) (by decide) (by decide)⟩

/-- Two events for which `getStates` returns every state although no state
defines a transition for them: in the table of the specification's scenario,
the inherited name `toString` and the empty string.  The comment of the method
says "Returns an array of states for which there are specified event
transition rules" and "Returns all states if argument is undefined". -/
theorem getStates_inherited_event :
    (∀ p ∈ (FSM.create "A" abcTable).states, "toString" ∉ keys p.2.transitions) ∧
      (FSM.create "A" abcTable).getStates (some "toString") = .ok ["A", "B", "C"] ∧
      (∀ p ∈ (FSM.create "A" abcTable).states, "" ∉ keys p.2.transitions) ∧
      (FSM.create "A" abcTable).getStates (some "") = .ok ["A", "B", "C"] := by
  refine ⟨by decide, rfl, by decide, rfl⟩

/-- C20. A falsy event argument counts as absent: for every transition table
`getStates("")` returns what `getStates()` returns, every declared state,
whether or not a state defines a transition for the empty-string event. -/
theorem getStates_empty_event (m : FSM) :
    m.getStates (some "") = m.getStates none ∧
      ∃ all, m.getStates (some "") = .ok all ∧ all.Perm (keys m.states) := by
  have h : m.getStates (some "") = m.getStates none := by
    simp [FSM.getStates, truthy]
  refine ⟨h, forInKeys m.states, ?_, forInKeys_perm _⟩
  simp [FSM.getStates, truthy, collectAll_eq]

/-! ## What one call does to the histories -/

/-- The effect of one call on the table, the initial state and the two
histories: nothing; a string appended to done and undone emptied; done
reseeded with the initial state; the last element of done moved to undone; or
the last element of undone moved to done. -/
theorem step_effect (m : FSM) (c : Call) :
    (step m c).states = m.states ∧ (step m c).initialState = m.initialState ∧
      (((step m c).statesDone.contents = m.statesDone.contents ∧
          (step m c).statesUndone.contents = m.statesUndone.contents) ∨
        (∃ s, (step m c).statesDone.contents = m.statesDone.contents ++ [some s] ∧
          (step m c).statesUndone.contents = []) ∨
        ((step m c).statesDone.contents = [some m.initialState] ∧
          ((step m c).statesUndone.contents = m.statesUndone.contents ∨
            (step m c).statesUndone.contents = [])) ∨
        (∃ v, m.statesDone.contents = (step m c).statesDone.contents ++ [v] ∧
          (step m c).statesDone.contents ≠ [] ∧
          (step m c).statesUndone.contents = m.statesUndone.contents ++ [v]) ∨
        (∃ v, m.statesUndone.contents = (step m c).statesUndone.contents ++ [v] ∧
          (step m c).statesDone.contents = m.statesDone.contents ++ [v])) := by
  cases c with
  | changeState state =>
    simp only [step]
    rcases changeState_snd m (some state) with hs | hs
    · rw [hs]
      exact ⟨rfl, rfl, Or.inl ⟨rfl, rfl⟩⟩
    · rw [hs]
      exact ⟨rfl, rfl, Or.inr (Or.inl ⟨state, Stack.contents_push _ _,
        Stack.contents_clear _⟩)⟩
  | trigger event =>
    simp only [step]
    rcases trigger_snd m event with hs | ⟨state, hs⟩
    · rw [hs]
      exact ⟨rfl, rfl, Or.inl ⟨rfl, rfl⟩⟩
    · rw [hs]
      exact ⟨rfl, rfl, Or.inr (Or.inl ⟨state, Stack.contents_push _ _,
        Stack.contents_clear _⟩)⟩
  | reset =>
    refine ⟨rfl, rfl, Or.inr (Or.inr (Or.inl ⟨?_, Or.inl rfl⟩))⟩
    simp [step, FSM.reset, Stack.contents_push, Stack.contents_clear]
  | clearHistory =>
    refine ⟨rfl, rfl, Or.inr (Or.inr (Or.inl ⟨?_, Or.inr (Stack.contents_clear _)⟩))⟩
    simp [step, FSM.clearHistory, Stack.contents_push, Stack.contents_clear]
  | undo =>
    by_cases hlt : 1 < m.statesDone.top
    · simp only [step]
      rw [FSM.undo_of_lt m hlt]
      refine ⟨rfl, rfl, Or.inr (Or.inr (Or.inr (Or.inl
        ⟨_, Stack.contents_eq_pop m.statesDone (by omega), ?_, Stack.contents_push _ _⟩)))⟩
      intro hnil
      have hl := congrArg List.length hnil
      rw [Stack.length_contents] at hl
      simp at hl
      omega
    · simp only [step]
      rw [FSM.undo_of_le m (by omega)]
      exact ⟨rfl, rfl, Or.inl ⟨rfl, rfl⟩⟩
  | redo =>
    by_cases hpos : 0 < m.statesUndone.top
    · simp only [step]
      rw [FSM.redo_of_pos m hpos]
      exact ⟨rfl, rfl, Or.inr (Or.inr (Or.inr (Or.inr
        ⟨_, Stack.contents_eq_pop m.statesUndone hpos, Stack.contents_push _ _⟩)))⟩
    · simp only [step]
      rw [FSM.redo_of_zero m (by omega)]
      exact ⟨rfl, rfl, Or.inl ⟨rfl, rfl⟩⟩

theorem run_cons (m : FSM) (c : Call) (calls : List Call) :
    run m (c :: calls) = run (step m c) calls := rfl

theorem run_states (calls : List Call) (m : FSM) :
    (run m calls).states = m.states ∧ (run m calls).initialState = m.initialState := by
  induction calls generalizing m with
  | nil => exact ⟨rfl, rfl⟩
  | cons c rest ih =>
    obtain ⟨h1, h2, _⟩ := step_effect m c
    rw [run_cons, (ih (step m c)).1, (ih (step m c)).2, h1, h2]
    exact ⟨rfl, rfl⟩

/-! ## Undeclared initial state and undeclared targets -/

/-- C15. Construction checks nothing and cannot fail.  With an initial state
that is not a key of the transition table, the new machine has done
`[initial]` and undone `[]`, `getState()` returns the undeclared identifier,
and every `trigger(event)`, also after any number of earlier `trigger` calls,
throws the `TypeError` of the read of the missing table entry, not "This event
can't be triggered.", and leaves the machine as it was. -/
theorem create_undeclared_initial (initial : String) (states : Table)
    (h : initial ∉ keys states) (events : List String) :
    (FSM.create initial states).statesDone.contents = [some initial] ∧
      (FSM.create initial states).statesUndone.contents = [] ∧
      (FSM.create initial states).getState = some initial ∧
      (∀ event, (FSM.create initial states).trigger event =
        (.error .typeError, FSM.create initial states)) ∧
      run (FSM.create initial states) (events.map Call.trigger) =
        FSM.create initial states := by
  have hstate : (FSM.create initial states).getState = some initial := Stack.peek_push _ _
  have htrig : ∀ event, (FSM.create initial states).trigger event =
      (.error .typeError, FSM.create initial states) := by
    intro event
    have hread := readState_inherited (FSM.create initial states).states initial h
    cases hp : getProp objectPrototype initial with
    | none =>
      rw [hp] at hread
      simp [FSM.trigger, hstate, propertyKey, hread]
    | some text =>
      rw [hp] at hread
      simp [FSM.trigger, hstate, propertyKey, hread]
  refine ⟨?_, rfl, hstate, htrig, ?_⟩
  · simp [FSM.create, Stack.contents_push, Stack.contents_create]
  · induction events with
    | nil => rfl
    | cons e rest ih =>
      rw [List.map_cons, run_cons]
      simp only [step]
      rw [htrig e]
      exact ih

theorem create_undeclared_initial_witness :
    "Z" ∉ keys abcTable ∧
      (FSM.create "Z" abcTable).statesDone.contents = [some "Z"] ∧
      (FSM.create "Z" abcTable).statesUndone.contents = [] ∧
      (FSM.create "Z" abcTable).getState = some "Z" ∧
      (∀ event, (FSM.create "Z" abcTable).trigger event =
        (.error .typeError, FSM.create "Z" abcTable)) ∧
      run (FSM.create "Z" abcTable) (["go", "back"].map Call.trigger) =
        FSM.create "Z" abcTable :=
  ⟨by decide, create_undeclared_initial "Z" abcTable (by decide) ["go", "back"]⟩

/-- C16, as the claim states it, fails: in `danglingEmptyTable` the current
state `A` is declared and its event `e` has the target `""`, which is not a
key of the table, yet `trigger("e")` throws "This event can't be triggered."
and not "This state doesn't exist.", because the empty string is falsy. -/
theorem trigger_empty_undeclared_target :
    (FSM.create "A" danglingEmptyTable).getState = some "A" ∧
      getProp (FSM.create "A" danglingEmptyTable).states "A" = some ⟨[("e", "")]⟩ ∧
      getProp (⟨[("e", "")]⟩ : StateRecord).transitions "e" = some "" ∧
      "" ∉ keys (FSM.create "A" danglingEmptyTable).states ∧
      (FSM.create "A" danglingEmptyTable).trigger "e" =
        (.error .invalidTransition, FSM.create "A" danglingEmptyTable) ∧
      ((FSM.create "A" danglingEmptyTable).trigger "e").1 ≠ .error .unknownState := by
  refine ⟨by decide, by decide, by decide, by decide, rfl, ?_⟩
  have h : (FSM.create "A" danglingEmptyTable).trigger "e" =
      (.error .invalidTransition, FSM.create "A" danglingEmptyTable) := rfl
  rw [h]
  simp

/-- C16, amended. When the current state `cur` is declared and its transition
for `event` is a state `t` that is not the empty string, not a key of the
transition table and not the name of a property inherited from
`Object.prototype`, `trigger(event)` throws the error of `changeState`, "This
state doesn't exist.", and not "This event can't be triggered.", and leaves
the machine as it was; so this target does not become the current state. -/
theorem trigger_undeclared_target (m : FSM) (cur event t : String) (record : StateRecord)
    (hcur : m.getState = some cur) (hrec : getProp m.states cur = some record)
    (ht : getProp record.transitions event = some t) (hundecl : t ∉ keys m.states)
    (hne : t ≠ "") (hproto : t ∉ keys objectPrototype) :
    m.trigger event = (.error .unknownState, m) ∧
      FsmError.message .unknownState = "This state doesn't exist." ∧
      (m.trigger event).1 ≠ .error .invalidTransition ∧
      (m.trigger event).2.getState = some cur := by
  have hc := FSM.changeState_of_not_mem m t hundecl hproto
  have hread : readState m.states (propertyKey m.getState) = some (.record record) := by
    rw [hcur]
    exact readState_own m.states cur record hrec
  have htruthy : truthy (some t) = true := by simp [truthy, hne]
  have htr : m.trigger event = (.error .unknownState, m) := by
    rw [trigger_record m event record hread, readTarget_own _ _ _ ht, if_pos htruthy, hc]
  refine ⟨htr, rfl, by rw [htr]; simp, by rw [htr]; exact hcur⟩

theorem trigger_undeclared_target_witness :
    (FSM.create "A" [("A", ⟨[("e", "X")]⟩)]).getState = some "A" ∧
      getProp (FSM.create "A" [("A", ⟨[("e", "X")]⟩)]).states "A" = some ⟨[("e", "X")]⟩ ∧
      getProp (⟨[("e", "X")]⟩ : StateRecord).transitions "e" = some "X" ∧
      "X" ∉ keys (FSM.create "A" [("A", ⟨[("e", "X")]⟩)]).states ∧ "X" ≠ "" ∧
      "X" ∉ keys objectPrototype ∧
      (FSM.create "A" [("A", ⟨[("e", "X")]⟩)]).trigger "e" =
        (.error .unknownState, FSM.create "A" [("A", ⟨[("e", "X")]⟩)]) :=
  ⟨by decide, by decide, by decide, by decide, by decide, by decide,
    (trigger_undeclared_target (FSM.create "A" [("A", ⟨[("e", "X")]⟩)]) "A" "e" "X"
      ⟨[("e", "X")]⟩ (by decide) (by decide) (by decide) (by decide) (by decide)
      (by decide)).1⟩

/-! ## Undeclared states in the histories -/

/-- C17, at two failing inputs. The initial state `A` is declared.  In the
table of the specification's scenario `changeState("constructor")` succeeds,
and in `inheritedTargetTable` so does `trigger("e")`, whose target is
`constructor`: the test `!this.states[state]` finds the function inherited
from `Object.prototype`.  Either way `constructor`, which is not a key of the
table, is on done and is `getState()`, and the next `trigger` throws the
`TypeError` of the read of `transitions[event]`. -/
theorem undeclared_state_enters_done :
    "A" ∈ keys abcTable ∧ "constructor" ∉ keys abcTable ∧
      (run (FSM.create "A" abcTable) [.changeState "constructor"]).statesDone.contents =
        [some "A", some "constructor"] ∧
      (run (FSM.create "A" abcTable) [.changeState "constructor"]).getState =
        some "constructor" ∧
      ((run (FSM.create "A" abcTable) [.changeState "constructor"]).trigger "go").1 =
        .error .typeError ∧
      "A" ∈ keys inheritedTargetTable ∧ "constructor" ∉ keys inheritedTargetTable ∧
      ((FSM.create "A" inheritedTargetTable).trigger "e").1 = .ok () ∧
      (run (FSM.create "A" inheritedTargetTable) [.trigger "e"]).statesDone.contents =
        [some "A", some "constructor"] ∧
      ((run (FSM.create "A" inheritedTargetTable) [.trigger "e"]).trigger "e").1 =
        .error .typeError := by
  refine ⟨by decide, by decide, by decide, by decide, rfl, by decide, by decide, rfl,
    by decide, rfl⟩

/-! ## The first element of done -/

theorem Stack.head?_contents (s : Stack) (h : 0 < s.top) :
    s.contents.head? = some (arrayGet s.data 0) := by
  obtain ⟨d, t⟩ := s
  cases t with
  | zero => simp at h
  | succ n => simp [Stack.contents, List.range_succ_eq_map]

theorem head_step (m : FSM) (c : Call)
    (h : m.statesDone.contents.head? = some (some m.initialState)) :
    (step m c).statesDone.contents.head? = some (some (step m c).initialState) := by
  obtain ⟨_, hin, heff⟩ := step_effect m c
  have hne : m.statesDone.contents ≠ [] := by
    intro hnil
    rw [hnil] at h
    simp at h
  rw [hin]
  rcases heff with ⟨e1, _⟩ | ⟨s, e1, _⟩ | ⟨e1, _⟩ | ⟨v, e1, hne1, _⟩ | ⟨v, _, e1⟩
  · rw [e1]; exact h
  · rw [e1, List.head?_append_of_ne_nil _ hne]; exact h
  · rw [e1]; rfl
  · rw [e1, List.head?_append_of_ne_nil _ hne1] at h; exact h
  · rw [e1, List.head?_append_of_ne_nil _ hne]; exact h

theorem head_run (calls : List Call) (m : FSM)
    (h : m.statesDone.contents.head? = some (some m.initialState)) :
    (run m calls).statesDone.contents.head? = some (some (run m calls).initialState) := by
  induction calls generalizing m with
  | nil => exact h
  | cons c rest ih =>
    rw [run_cons]
    exact ih (step m c) (head_step m c h)

/-- C19. After any sequence of `changeState`, `trigger`, `reset`,
`clearHistory`, `undo` and `redo` calls on a freshly constructed machine, the
oldest element of done is the initial state; and calling `undo()` until it
returns `false` comes to an end, after some `k` calls that return `true`, with
`getState()` equal to the initial state. -/
theorem done_starts_with_initial (initial : String) (states : Table) (calls : List Call) :
    (run (FSM.create initial states) calls).statesDone.contents.head? =
        some (some initial) ∧
      ∃ k m1, undoTimes k (run (FSM.create initial states) calls) = some m1 ∧
        m1.undo = (.ok false, m1) ∧ m1.getState = some initial := by
  have hin := (run_states calls (FSM.create initial states)).2
  have h0 : (FSM.create initial states).statesDone.contents.head? =
      some (some (FSM.create initial states).initialState) := by
    simp [FSM.create, Stack.contents_push, Stack.contents_create]
  have hhead := head_run calls _ h0
  rw [hin] at hhead
  have hhead1 : (run (FSM.create initial states) calls).statesDone.contents.head? =
      some (some initial) := hhead
  refine ⟨hhead1, ?_⟩
  have hpos : 0 < (run (FSM.create initial states) calls).statesDone.top := by
    rw [← Stack.length_contents]
    apply List.length_pos.mpr
    intro hnil
    rw [hnil] at hhead1
    simp at hhead1
  obtain ⟨m1, hk, hm1⟩ := undoTimes_of_lt
    ((run (FSM.create initial states) calls).statesDone.top - 1)
    (run (FSM.create initial states) calls) (by omega)
  have htop : m1.statesDone.top = 1 := by rw [hm1]; simp; omega
  refine ⟨_, m1, hk, FSM.undo_of_le m1 (by omega), ?_⟩
  rw [Stack.head?_contents _ hpos] at hhead1
  rw [FSM.getState, Stack.peek_pos _ (by omega), htop, hm1]
  exact Option.some.inj hhead1

end FsmJs
